import Mathlib

/-!
Verification of the Fibonacci printer in `src/test-code.py`:

```python
def fibonacci(n):
    """Calculate fibonacci numbers up to n."""
    a, b = 0, 1
    while a < n:
        print(a, end=' ')
        a, b = b, a + b
    print()

if __name__ == "__main__":
    fibonacci(100)
```

We embed the loop as a fuel-indexed recursion over the accumulator pair
`(a, b)` and prove that the fuel `3 * n.toNat + 2` always suffices, so the
list of emitted terms is a total function of the bound.  The output string
is the concatenation of the per-iteration writes (`print(a, end=' ')`
writes the decimal rendering of `a` followed by one space) and the final
`print()`, which writes a newline.
-/

/-- The loop body's update `a, b = b, a + b`. -/
def fibStep (p : Int × Int) : Int × Int := (p.2, p.1 + p.2)

/-- The `while a < n` loop: emits `a` each iteration, then applies `fibStep`.
Fuel-indexed; returns `none` when the fuel runs out before the guard fails. -/
def fibLoop : Nat → Int × Int → Int → Option (List Int)
  | 0, p, n => if p.1 < n then none else some []
  | fuel + 1, p, n =>
    if p.1 < n then (fibLoop fuel (fibStep p) n).map (p.1 :: ·) else some []

/-- Fuel that always suffices for `fibLoop` from the initial state `(0, 1)`. -/
def FUEL (n : Int) : Nat := 3 * n.toNat + 2

/-- The list of terms emitted by `fibonacci n`, in order.  The initial state
is `a, b = 0, 1`. -/
def emitted (n : Int) : List Int := (fibLoop (FUEL n) (0, 1) n).getD []

/-- The text written by one iteration's `print(a, end=' ')`. -/
def writeTerm (t : Int) : String := toString t ++ " "

/-- The text written by the sequence of `print(a, end=' ')` calls. -/
def writes : List Int → String
  | [] => ""
  | t :: ts => writeTerm t ++ writes ts

/-- The full standard output of `fibonacci n`: the per-iteration writes,
then the newline written by the final `print()`. -/
def fibonacci (n : Int) : String := writes (emitted n) ++ "\n"

/-- The state of the accumulator pair after `k` executions of the loop
body's update, starting from `a, b = 0, 1`. -/
def fibState : Nat → Int × Int
  | 0 => (0, 1)
  | k + 1 => fibStep (fibState k)

/-- The program's entry point calls `fibonacci(100)`; this is its output. -/
def mainOutput : String := fibonacci 100

/-- The loop invariant on the accumulator pair that makes the fuel bound
work: `0 ≤ a`, `0 < b`, `a ≤ b`, `b ≤ 2 * a + 1`.  It holds at `(0, 1)` and
is preserved by `fibStep`. -/
theorem fibLoop_isSome (fuel : Nat) : ∀ (a b n : Int),
    0 ≤ a → 0 < b → a ≤ b → b ≤ 2 * a + 1 →
    3 * n.toNat + 2 ≤ fuel + (a + b).toNat →
    ∃ l, fibLoop fuel (a, b) n = some l := by
  induction fuel with
  | zero =>
    intro a b n ha hb hab hba hfuel
    refine ⟨[], ?_⟩
    simp only [fibLoop]
    rw [if_neg (by omega : ¬ a < n)]
  | succ fuel ih =>
    intro a b n ha hb hab hba hfuel
    by_cases h : a < n
    · obtain ⟨l, hl⟩ := ih b (a + b) n (by omega) (by omega) (by omega) (by omega) (by omega)
      exact ⟨a :: l, by simp [fibLoop, h, fibStep, hl]⟩
    · exact ⟨[], by simp [fibLoop, h]⟩

/-- With enough fuel, `fibLoop` returns `some` of the emitted list. -/
theorem fibLoop_eq_emitted (n : Int) : fibLoop (FUEL n) (0, 1) n = some (emitted n) := by
  obtain ⟨l, hl⟩ :=
    fibLoop_isSome (FUEL n) 0 1 n (by omega) (by omega) (by omega) (by omega)
      (by simp [FUEL])
  rw [emitted, hl]
  rfl

/-- Increasing the fuel of a successful run does not change its result. -/
theorem fibLoop_fuel_irrel : ∀ (fuel fuel' : Nat) (p : Int × Int) (n : Int) (l : List Int),
    fibLoop fuel p n = some l → fuel ≤ fuel' → fibLoop fuel' p n = some l := by
  intro fuel
  induction fuel with
  | zero =>
    intro fuel' p n l h _
    simp only [fibLoop] at h
    by_cases hg : p.1 < n
    · simp [hg] at h
    · simp only [hg, if_false] at h
      cases fuel' <;> simp [fibLoop, hg, ← Option.some_inj.mp h]
  | succ fuel ih =>
    intro fuel' p n l h hle
    obtain ⟨fuel'', rfl⟩ : ∃ k, fuel' = k + 1 := ⟨fuel' - 1, by omega⟩
    simp only [fibLoop] at h ⊢
    by_cases hg : p.1 < n
    · simp only [hg, if_true] at h ⊢
      obtain ⟨l', hl', rfl⟩ := Option.map_eq_some'.mp h
      rw [ih fuel'' _ _ _ hl' (by omega)]
      rfl
    · simpa [hg] using h

/-- Specification of a successful `fibLoop` run started at the pair of
Fibonacci numbers of index `j`: the result lists consecutive Fibonacci
numbers, all below the bound, and the next Fibonacci number reaches the
bound. -/
theorem fibLoop_spec : ∀ (fuel j : Nat) (p : Int × Int) (n : Int) (l : List Int),
    fibLoop fuel p n = some l →
    p.1 = (Nat.fib j : Int) → p.2 = (Nat.fib (j + 1) : Int) →
    (∀ i (h : i < l.length), l.get ⟨i, h⟩ = (Nat.fib (j + i) : Int)) ∧
    (∀ t ∈ l, t < n) ∧ n ≤ (Nat.fib (j + l.length) : Int) := by
  intro fuel
  induction fuel with
  | zero =>
    intro j p n l h h1 h2
    simp only [fibLoop] at h
    by_cases hg : p.1 < n
    · simp [hg] at h
    · simp only [hg, if_false] at h
      obtain rfl : ([] : List Int) = l := Option.some_inj.mp h
      refine ⟨fun i h => absurd h (by simp), fun t ht => absurd ht (by simp), ?_⟩
      simp only [List.length_nil, Nat.add_zero, ← h1]
      exact not_lt.mp hg
  | succ fuel ih =>
    intro j p n l h h1 h2
    simp only [fibLoop] at h
    by_cases hg : p.1 < n
    · simp only [hg, if_true] at h
      obtain ⟨l', hl', rfl⟩ := Option.map_eq_some'.mp h
      have hstep1 : (fibStep p).1 = (Nat.fib (j + 1) : Int) := h2
      have hstep2 : (fibStep p).2 = (Nat.fib (j + 1 + 1) : Int) := by
        show p.1 + p.2 = _
        rw [h1, h2, show j + 1 + 1 = j + 2 from rfl, Nat.fib_add_two]
        push_cast
        ring
      obtain ⟨hget, hmem, hge⟩ := ih (j + 1) (fibStep p) n l' hl' hstep1 hstep2
      refine ⟨?_, ?_, ?_⟩
      · intro i hi
        match i with
        | 0 => simpa using h1
        | (i' + 1) =>
          have := hget i' (by simpa using Nat.lt_of_succ_lt_succ hi)
          simpa [show j + 1 + i' = j + (i' + 1) by omega] using this
      · intro t ht
        rcases List.mem_cons.mp ht with rfl | ht'
        · exact hg
        · exact hmem t ht'
      · simpa [show j + 1 + l'.length = j + (l'.length + 1) by omega] using hge
    · simp only [hg, if_false] at h
      obtain rfl : ([] : List Int) = l := Option.some_inj.mp h
      refine ⟨fun i h => absurd h (by simp), fun t ht => absurd ht (by simp), ?_⟩
      simp only [List.length_nil, Nat.add_zero, ← h1]
      exact not_lt.mp hg

/-- The emitted list holds consecutive Fibonacci numbers from index 0, all
strictly below the bound, and the Fibonacci number indexed by its length
reaches the bound. -/
theorem emitted_spec (n : Int) :
    (∀ i (h : i < (emitted n).length), (emitted n).get ⟨i, h⟩ = (Nat.fib i : Int)) ∧
    (∀ t ∈ emitted n, t < n) ∧ n ≤ (Nat.fib (emitted n).length : Int) := by
  obtain ⟨hget, hmem, hge⟩ :=
    fibLoop_spec (FUEL n) 0 (0, 1) n (emitted n) (fibLoop_eq_emitted n) (by simp) (by simp)
  refine ⟨fun i h => ?_, hmem, by simpa using hge⟩
  simpa using hget i h

/-- A larger bound lets the loop emit at least as many terms. -/
theorem emitted_length_mono {n₁ n₂ : Int} (h : n₁ ≤ n₂) :
    (emitted n₁).length ≤ (emitted n₂).length := by
  by_contra hcon
  push_neg at hcon
  obtain ⟨hget1, hlt1, _⟩ := emitted_spec n₁
  obtain ⟨_, _, hge2⟩ := emitted_spec n₂
  have hmem : (emitted n₁).get ⟨(emitted n₂).length, hcon⟩ ∈ emitted n₁ :=
    List.get_mem _ _ _
  have hlt := hlt1 _ hmem
  rw [hget1 _ hcon] at hlt
  omega

/-- For a smaller bound the emitted list is an initial segment of the list
for a larger bound. -/
theorem emitted_take {n₁ n₂ : Int} (h : n₁ ≤ n₂) :
    emitted n₁ = (emitted n₂).take (emitted n₁).length := by
  have hlen := emitted_length_mono h
  obtain ⟨hget1, _, _⟩ := emitted_spec n₁
  obtain ⟨hget2, _, _⟩ := emitted_spec n₂
  refine List.ext_get (by simp [Nat.min_eq_left hlen]) ?_
  intro i h₁ h₂
  have hi₂ : i < (emitted n₂).length := lt_of_lt_of_le h₁ hlen
  rw [hget1 i h₁]
  rw [show ((emitted n₂).take (emitted n₁).length).get ⟨i, h₂⟩ = (emitted n₂).get ⟨i, hi₂⟩ by
    simp [List.get_eq_getElem, List.getElem_take]]
  rw [hget2 i hi₂]

/-- Index form of `emitted_spec`: the `i`-th emitted term is `Nat.fib i`. -/
theorem emitted_getElem (n : Int) (i : Nat) (h : i < (emitted n).length) :
    (emitted n)[i] = (Nat.fib i : Int) := by
  have := (emitted_spec n).1 i h
  rwa [List.get_eq_getElem] at this

theorem join_nil : String.join [] = "" := rfl

theorem join_cons (a : String) (l : List String) :
    String.join (a :: l) = a ++ String.join l := by
  apply String.ext
  simp [String.data_join, String.data_append]

/-- The sequence of `print(a, end=' ')` writes equals the space-intercalated
renderings followed by one trailing space when at least one term was
written. -/
theorem writes_intersperse (l : List Int) :
    writes l = String.join (List.intersperse " " (l.map toString)) ++
      (if l.isEmpty then "" else " ") := by
  induction l with
  | nil => simp [writes, join_nil]
  | cons t ts ih =>
    cases ts with
    | nil =>
      simp [writes, writeTerm, join_cons, join_nil, String.append_empty]
    | cons u us =>
      rw [show writes (t :: u :: us) = writeTerm t ++ writes (u :: us) from rfl, ih]
      simp only [List.map_cons, List.intersperse_cons_cons, join_cons, List.isEmpty_cons]
      simp [writeTerm, String.append_assoc]

/-- The accumulator pair after `k` updates is the `k`-th pair of consecutive
Fibonacci numbers. -/
theorem fibState_eq (k : Nat) :
    fibState k = ((Nat.fib k : Int), (Nat.fib (k + 1) : Int)) := by
  induction k with
  | zero => rfl
  | succ k ih =>
    show fibStep (fibState k) = _
    rw [ih]
    show ((Nat.fib (k + 1) : Int), (Nat.fib k : Int) + (Nat.fib (k + 1) : Int)) = _
    rw [show k + 1 + 1 = k + 2 from rfl, Nat.fib_add_two]
    push_cast
    ring_nf

/-! ## Claim theorems -/

/-- C1 counterexample: the output of `fibonacci 2` is not the space-joined
renderings followed immediately by a newline — a trailing space intervenes. -/
theorem fibonacci_no_trailing_space_false :
    fibonacci 2 ≠ String.join (List.intersperse " " ((emitted 2).map toString)) ++ "\n" := by
  decide

/-- C1 (amended): the separator space appears between emitted terms, an
additional trailing space follows the last term whenever at least one term
was emitted, and a final newline is always written: for every bound `n` the
output of `fibonacci n` is the space-joined decimal renderings of the
emitted terms, then a trailing space if the list of terms is nonempty, then
a single newline. -/
theorem fibonacci_output_format (n : Int) :
    fibonacci n = (String.join (List.intersperse " " ((emitted n).map toString)) ++
      (if (emitted n).isEmpty then "" else " ")) ++ "\n" := by
  show writes (emitted n) ++ "\n" = _
  rw [writes_intersperse]

/-- C2 counterexample: the program's output for the entry-point bound 100 is
not `"0 1 1 2 3 5 8 13 21 34 55 89\n"` — a trailing space precedes the
newline. -/
theorem fibonacci_100_spec_output_false :
    mainOutput ≠ "0 1 1 2 3 5 8 13 21 34 55 89\n" := by
  decide

/-- C2 (amended): calling `fibonacci` with the bound 100 writes exactly the
text `"0 1 1 2 3 5 8 13 21 34 55 89 "` (trailing space included) followed by
a newline, and this is also the full output of the program when executed
directly, since its entry point invokes the emitter with the literal bound
100. -/
theorem fibonacci_100_output :
    mainOutput = "0 1 1 2 3 5 8 13 21 34 55 89 \n" ∧ mainOutput = fibonacci 100 :=
  ⟨by decide, rfl⟩

/-- C3: for every bound `n ≤ 0` the loop guard `0 < n` fails at once, zero
terms are emitted, and the output is exactly a single newline character. -/
theorem fibonacci_nonpos_newline (n : Int) (h : n ≤ 0) : fibonacci n = "\n" := by
  have hempty : emitted n = [] := by
    have hlt : ¬ ((0 : Int) < n) := by omega
    simp [emitted, FUEL, Int.toNat_of_nonpos h, fibLoop, hlt]
  show writes (emitted n) ++ "\n" = "\n"
  rw [hempty]
  exact String.empty_append "\n"

/-- C3 witness at the bound `-3`. -/
theorem fibonacci_nonpos_newline_witness :
    (-3 : Int) ≤ 0 ∧ fibonacci (-3) = "\n" :=
  ⟨by decide, fibonacci_nonpos_newline (-3) (by decide)⟩

/-- C4 counterexample: the output of `fibonacci 1` is not the two characters
`"0\n"` — it is the three characters `"0 \n"`. -/
theorem fibonacci_one_spec_output_false : fibonacci 1 ≠ "0\n" := by
  decide

/-- C4 (amended): for the bound `n = 1` the output of `fibonacci n` is
exactly the three characters `"0 \n"`: the single term `0`, the space
written by its `print(a, end=' ')`, and the final newline. -/
theorem fibonacci_one_output : fibonacci 1 = "0 \n" := by
  decide

/-- C5: the emitted sequence is exactly the prefix `0, 1, 1, 2, 3, 5, …` of
the Fibonacci sequence consisting of all terms strictly below `n`: the
`i`-th emitted term is `Nat.fib i`, every emitted term is below `n`, and the
next Fibonacci number (indexed by the emitted length) already reaches `n`,
so no further Fibonacci term lies below the bound. -/
theorem emitted_is_fib_below_bound (n : Int) :
    emitted n = (List.range (emitted n).length).map (fun i => (Nat.fib i : Int)) ∧
    (∀ t ∈ emitted n, t < n) ∧ n ≤ (Nat.fib (emitted n).length : Int) := by
  obtain ⟨hget, hmem, hge⟩ := emitted_spec n
  refine ⟨?_, hmem, hge⟩
  refine List.ext_get (by simp) ?_
  intro i h₁ h₂
  rw [hget i h₁]
  simp [List.get_eq_getElem, List.getElem_map, List.getElem_range]

/-- C5 witness at the bound 10: the term 3 is emitted and is below 10. -/
theorem emitted_is_fib_below_bound_witness :
    (3 : Int) ∈ emitted 10 ∧ (3 : Int) < 10 :=
  ⟨by decide, (emitted_is_fib_below_bound 10).2.1 3 (by decide)⟩

/-- C6: the accumulator-pair invariant.  After `k` executions of the loop
body's update the pair is `(Nat.fib k, Nat.fib (k + 1))` — so the first
component is the value emitted at step `k` (the initial 0 before any
emission) and the second is its successor under the recurrence
`next = current + previous`; the state is carried from one step to the next
by the loop body's update `a, b = b, a + b`; and whenever the loop emits a
`k`-th term, that term is the first component of the `k`-th state. -/
theorem accumulator_invariant (k : Nat) :
    fibState k = ((Nat.fib k : Int), (Nat.fib (k + 1) : Int)) ∧
    fibState (k + 1) = fibStep (fibState k) ∧
    ∀ (n : Int) (h : k < (emitted n).length), (emitted n)[k] = (fibState k).1 := by
  refine ⟨fibState_eq k, rfl, ?_⟩
  intro n h
  rw [emitted_getElem n k h, fibState_eq k]

/-- C6 witness at `k = 0`, bound 1: the first emitted term equals the first
component of the initial state. -/
theorem accumulator_invariant_witness :
    (0 : Nat) < (emitted 1).length ∧ (emitted 1)[0] = (fibState 0).1 :=
  ⟨by decide, (accumulator_invariant 0).2.2 1 (by decide)⟩

/-- C7: monotonicity — for bounds `n₁ ≤ n₂` the emitted sequence for `n₁`
is a prefix of the emitted sequence for `n₂`. -/
theorem emitted_mono_of_le (n₁ n₂ : Int) (h : n₁ ≤ n₂) :
    emitted n₁ <+: emitted n₂ := by
  rw [emitted_take h]
  exact List.take_prefix _ _

/-- C7 witness at the bounds 5 and 10. -/
theorem emitted_mono_of_le_witness :
    (5 : Int) ≤ 10 ∧ emitted 5 <+: emitted 10 :=
  ⟨by decide, emitted_mono_of_le 5 10 (by decide)⟩

/-- C8: determinism across invocations — two runs of the loop with the same
bound from the fresh initial state `(0, 1)` return the same result, however
much fuel each run is given beyond the sufficient amount, and that common
result is `some` of the emitted list, so the rendered output is identical
both times. -/
theorem fibonacci_deterministic (n : Int) (f₁ f₂ : Nat)
    (h₁ : FUEL n ≤ f₁) (h₂ : FUEL n ≤ f₂) :
    fibLoop f₁ (0, 1) n = fibLoop f₂ (0, 1) n ∧
    fibLoop f₁ (0, 1) n = some (emitted n) := by
  have e₁ := fibLoop_fuel_irrel (FUEL n) f₁ (0, 1) n (emitted n) (fibLoop_eq_emitted n) h₁
  have e₂ := fibLoop_fuel_irrel (FUEL n) f₂ (0, 1) n (emitted n) (fibLoop_eq_emitted n) h₂
  rw [e₁, e₂]
  exact ⟨rfl, rfl⟩

/-- C8 witness at the bound 10 with fuels 32 and 40. -/
theorem fibonacci_deterministic_witness :
    FUEL 10 ≤ 32 ∧ FUEL 10 ≤ 40 ∧ fibLoop 32 (0, 1) 10 = fibLoop 40 (0, 1) 10 :=
  ⟨by decide, by decide, (fibonacci_deterministic 10 32 40 (by decide) (by decide)).1⟩

/-- C9: termination — for every bound `n` the loop, given the explicit fuel
`FUEL n = 3 * n.toNat + 2`, runs to completion (returns `some` list rather
than exhausting its fuel), so the embedded emitter is a total function of
the bound. -/
theorem fibLoop_terminates (n : Int) :
    ∃ l, fibLoop (FUEL n) (0, 1) n = some l ∧ emitted n = l :=
  ⟨emitted n, fibLoop_eq_emitted n, rfl⟩

/-- C10: the emitted sequence is non-decreasing (indeed pairwise `≤` at all
index pairs) and every emitted term is non-negative. -/
theorem emitted_sorted_nonneg (n : Int) :
    List.Sorted (· ≤ ·) (emitted n) ∧ ∀ t ∈ emitted n, 0 ≤ t := by
  constructor
  · rw [List.Sorted, List.pairwise_iff_getElem]
    intro i j hi hj hij
    rw [emitted_getElem n i hi, emitted_getElem n j hj]
    exact_mod_cast Nat.fib_mono hij.le
  · intro t ht
    obtain ⟨i, hi, rfl⟩ := List.mem_iff_getElem.mp ht
    rw [emitted_getElem n i hi]
    omega

/-- C10 witness at the bound 10: the emitted term 2 is non-negative. -/
theorem emitted_sorted_nonneg_witness :
    (2 : Int) ∈ emitted 10 ∧ (0 : Int) ≤ 2 :=
  ⟨by decide, (emitted_sorted_nonneg 10).2 2 (by decide)⟩
